import Mathlib

/-!
Verification development for the snapshot-and-inline DOM-to-image pipeline
(`src/dom-to-image-more.js`).  JavaScript strings are shallowly embedded as
`List Char` (named `Str` below) so that scanning, splitting and replacement
can be reasoned about by structural induction; all definitions are
executable translations of the corresponding JavaScript functions.
-/

namespace DomToImage

/-- JavaScript strings are modelled as lists of characters. -/
abbrev Str := List Char

/-- Shorthand for turning a Lean string literal into the model type. -/
def strOf (s : String) : Str := s.toList

/-- Decimal rendering of a natural number, as JavaScript's number-to-string
coercion produces inside message concatenations. -/
def natToStr (n : Nat) : Str := (Nat.repr n).toList

/-! ## Shared configuration object (`defaultOptions`, `copyOptions`) -/

/-- The subset of a user supplied options object that `copyOptions` hoists
into the shared `domtoimage.impl.options`; `none` models a field that is
`undefined` on the options object. -/
structure RenderOptions where
  imagePlaceholder : Option Str
  cacheBust : Option Bool
  useCredentials : Option Bool

/-- The process-wide `domtoimage.impl.options` object after `copyOptions`
ran: the placeholder may be absent, the two flags are plain booleans. -/
structure ImplOptions where
  imagePlaceholder : Option Str
  cacheBust : Bool
  useCredentials : Bool
deriving DecidableEq

/-- The `defaultOptions` literal of the source: no placeholder, no cache
busting, no credentials. -/
def defaultOptions : ImplOptions :=
  { imagePlaceholder := none, cacheBust := false, useCredentials := false }

/-- Translation of `copyOptions(options)`: each of the three fields of the
shared object is assigned unconditionally — the supplied value when the
option is defined, the built-in default otherwise.  `prev` is the state the
shared object had before the call; the source overwrites it field by field. -/
def copyOptions (prev : ImplOptions) (options : RenderOptions) : ImplOptions :=
  let afterPlaceholder :=
    match options.imagePlaceholder with
    | none => { prev with imagePlaceholder := defaultOptions.imagePlaceholder }
    | some v => { prev with imagePlaceholder := some v }
  let afterCacheBust :=
    match options.cacheBust with
    | none => { afterPlaceholder with cacheBust := defaultOptions.cacheBust }
    | some v => { afterPlaceholder with cacheBust := v }
  match options.useCredentials with
  | none => { afterCacheBust with useCredentials := defaultOptions.useCredentials }
  | some v => { afterCacheBust with useCredentials := v }

/-! ## Resource Fetcher (`getAndEncode`) -/

/-- JavaScript `string.split(/,/)`: splits at every comma, keeping empty
segments (the split of the empty string is one empty segment). -/
def splitOnComma : Str → List Str
  | [] => [[]]
  | c :: rest =>
    if c = ',' then [] :: splitOnComma rest
    else
      match splitOnComma rest with
      | [] => [[c]]
      | p :: ps => (c :: p) :: ps

/-- The fixed request timeout of `getAndEncode` (milliseconds). -/
def TIMEOUT : Nat := 30000

/-- Translation of the cache-bust prefix of `getAndEncode`: when the shared
`cacheBust` flag is set, the current time is appended as a query parameter
(`&` if the URL already has a `?`, `?` otherwise). -/
def requestUrl (url : Str) (now : Nat) (opts : ImplOptions) : Str :=
  if opts.cacheBust then
    url ++ (if '?' ∈ url then strOf "&" else strOf "?") ++ natToStr now
  else url

/-- Translation of the placeholder extraction inside `getAndEncode`: the
configured `imagePlaceholder` is split on commas and segment 1 is used when
it exists and is non-empty (`if (split && split[1])`). -/
def extractPlaceholder (opts : ImplOptions) : Option Str :=
  match opts.imagePlaceholder with
  | none => none
  | some ph =>
    match (splitOnComma ph)[1]? with
    | some p => if p = [] then none else some p
    | none => none

/-- A terminal event of the underlying `XMLHttpRequest`: either the request
reached `readyState === 4` with some status (for status 200 the `FileReader`
then delivers a `data:` URL as `body`), or the fixed timeout fired. -/
inductive FetchEvent where
  | response (status : Nat) (body : Str)
  | timeout
deriving DecidableEq

/-- How the promise returned by `getAndEncode` settles.  `rejected` is in
the model so that the translation could express a rejection — the source
never performs one. -/
inductive FetchOutcome where
  | resolvedStr (s : Str)
  | resolvedUndef
  | rejected (msg : Str)
deriving DecidableEq

/-- Translation of the local `fail(message)` helper of `getAndEncode`: it
logs the message via `console.error` and resolves the promise with the
empty string — it does not reject. -/
def failOutcome (msg : Str) : FetchOutcome × List Str :=
  (.resolvedStr [], [msg])

/-- Whether an outcome is a successful settlement (a resolution). -/
def FetchOutcome.isResolved : FetchOutcome → Bool
  | .rejected _ => false
  | _ => true

/-- Translation of `getAndEncode(url)` as a function of the terminal request
event.  The second component collects the `console.error` messages emitted. -/
def getAndEncode (url : Str) (now : Nat) (opts : ImplOptions) (ev : FetchEvent) :
    FetchOutcome × List Str :=
  let u := requestUrl url now opts
  match ev with
  | .response status body =>
    if status = 200 then
      match (splitOnComma body)[1]? with
      | some content => (.resolvedStr content, [])
      | none => (.resolvedUndef, [])
    else
      match extractPlaceholder opts with
      | some p => (.resolvedStr p, [])
      | none =>
        failOutcome (strOf "cannot fetch resource: " ++ u ++ strOf ", status: " ++ natToStr status)
  | .timeout =>
    match extractPlaceholder opts with
    | some p => (.resolvedStr p, [])
    | none =>
      failOutcome (strOf "timeout of " ++ natToStr TIMEOUT ++ strOf "ms occured while fetching resource: " ++ u)

/-- Statement that, for one terminal response event with a non-success
status, `getAndEncode` behaves exactly like a timeout: the same settled
outcome, placeholder payload (the segment of the placeholder data URI
between its first and second comma, i.e. the post-comma payload of a
well-formed data URI) when one is configured, and the same `fail` branch
(resolving the empty string while logging a message that carries the URL)
otherwise. -/
def TimeoutMatchesNonSuccess (url : Str) (now : Nat) (opts : ImplOptions)
    (status : Nat) (body : Str) : Prop :=
  ((getAndEncode url now opts (.response status body)).1 = (getAndEncode url now opts .timeout).1)
  ∧ (∀ pre post, ',' ∉ pre → ',' ∉ post → post ≠ [] →
       opts.imagePlaceholder = some (pre ++ ',' :: post) →
       (getAndEncode url now opts (.response status body)).1 = .resolvedStr post
       ∧ (getAndEncode url now opts .timeout).1 = .resolvedStr post)
  ∧ (extractPlaceholder opts = none →
       getAndEncode url now opts (.response status body) =
         failOutcome (strOf "cannot fetch resource: " ++ requestUrl url now opts
           ++ strOf ", status: " ++ natToStr status)
       ∧ getAndEncode url now opts .timeout =
         failOutcome (strOf "timeout of " ++ natToStr TIMEOUT
           ++ strOf "ms occured while fetching resource: " ++ requestUrl url now opts))

/-! ## Container and canvas dimensions (`util.width`, `util.height`, `toSvg`,
`newCanvas`) -/

/-- The host-provided measurements that `util.width`/`util.height` read: the
scroll box of the node and the four resolved border widths (the `px` helper
parses the computed `border-*-width` values; here they appear already as
numbers, the claims only involve integral pixel values). -/
structure NodeMetrics where
  scrollWidth : Int
  scrollHeight : Int
  borderLeftWidth : Int
  borderRightWidth : Int
  borderTopWidth : Int
  borderBottomWidth : Int
deriving DecidableEq

/-- Translation of `util.width(node)`: scroll width plus the resolved left
and right border widths. -/
def nodeWidth (m : NodeMetrics) : Int :=
  m.scrollWidth + m.borderLeftWidth + m.borderRightWidth

/-- Translation of `util.height(node)`: scroll height plus the resolved top
and bottom border widths. -/
def nodeHeight (m : NodeMetrics) : Int :=
  m.scrollHeight + m.borderTopWidth + m.borderBottomWidth

/-- JavaScript `a || b` for an optional numeric option value: an undefined
option and the number `0` are falsy and select the fallback. -/
def jsOrSize (opt : Option Int) (fallback : Int) : Int :=
  match opt with
  | some v => if v = 0 then fallback else v
  | none => fallback

/-- Translation of the width `toSvg` passes to `makeSvgDataUri`
(`options.width || util.width(node)`). -/
def toSvgContainerWidth (optWidth : Option Int) (m : NodeMetrics) : Int :=
  jsOrSize optWidth (nodeWidth m)

/-- Translation of the height `toSvg` passes to `makeSvgDataUri`
(`options.height || util.height(node)`). -/
def toSvgContainerHeight (optHeight : Option Int) (m : NodeMetrics) : Int :=
  jsOrSize optHeight (nodeHeight m)

/-- Translation of `canvas.width` in `newCanvas`:
`(options.width || util.width(domNode)) * scale`. -/
def newCanvasWidth (optWidth : Option Int) (m : NodeMetrics) (scale : Int) : Int :=
  (jsOrSize optWidth (nodeWidth m)) * scale

/-- Translation of `canvas.height` in `newCanvas`:
`(options.height || util.height(domNode)) * scale`. -/
def newCanvasHeight (optHeight : Option Int) (m : NodeMetrics) (scale : Int) : Int :=
  (jsOrSize optHeight (nodeHeight m)) * scale

/-! ## Snapshot Cloner (`cloneNode`, `cloneChildrenInOrder`)

The source subtree is abstracted to its structure: a node identity
(`id`) and the ordered list of child nodes, written as a two-sorted
mutual inductive so that all recursions and inductions are structural.
`cloneNode(node, filter, root)` drops a non-root node rejected by the
filter together with its whole subtree, otherwise copies the node
shallowly and appends the completed child clones in document order,
skipping absent results (`if (childClone) parent.appendChild(childClone)`).
The style/pseudo/user-input post-processing of `processClone` does not
change which source nodes appear in the clone and is modelled separately
for the pseudo-element claims. -/

mutual
inductive DomNode where
  | node (id : Nat) (children : DomForest)
inductive DomForest where
  | nil
  | cons (head : DomNode) (tail : DomForest)
end

/-- Root identity of a source or clone node. -/
def rootId : DomNode → Nat
  | .node i _ => i

/-- Truthiness of `filter && !filter(node)` in the guard of `cloneNode`. -/
def filterRejects (filter : Option (DomNode → Bool)) (t : DomNode) : Bool :=
  match filter with
  | some f => !(f t)
  | none => false

mutual
/-- Translation of `cloneNode(node, filter, root)`: absent (`none`) when a
non-root node is rejected by a present filter, otherwise a shallow copy
with the in-order child clones attached. -/
def cloneNode (filter : Option (DomNode → Bool)) (root : Bool) : DomNode → Option DomNode
  | .node i cs =>
    if !root && filterRejects filter (.node i cs) then none
    else some (.node i (cloneChildrenInOrder filter cs))
/-- Translation of `cloneChildrenInOrder(parent, children, filter)`: each
child is cloned (as a non-root node) in document order and appended exactly
when its clone is present. -/
def cloneChildrenInOrder (filter : Option (DomNode → Bool)) : DomForest → DomForest
  | .nil => .nil
  | .cons c rest =>
    match cloneNode filter false c with
    | some childClone => .cons childClone (cloneChildrenInOrder filter rest)
    | none => cloneChildrenInOrder filter rest
end

mutual
/-- Instrumented `cloneNode` that additionally records, in evaluation
order, every node the filter predicate is applied to (the guard evaluates
`filter(node)` exactly on non-root nodes when a filter is present). -/
def cloneNodeTraced (filter : Option (DomNode → Bool)) (root : Bool) :
    DomNode → Option DomNode × List DomNode
  | .node i cs =>
    let calls : List DomNode :=
      if root then []
      else match filter with
        | some _ => [.node i cs]
        | none => []
    if !root && filterRejects filter (.node i cs) then (none, calls)
    else
      let sub := cloneChildrenTraced filter cs
      (some (.node i sub.1), calls ++ sub.2)
/-- Instrumented `cloneChildrenInOrder`, collecting the filter applications
of all child clones in order. -/
def cloneChildrenTraced (filter : Option (DomNode → Bool)) :
    DomForest → DomForest × List DomNode
  | .nil => (.nil, [])
  | .cons c rest =>
    let hd := cloneNodeTraced filter false c
    let tl := cloneChildrenTraced filter rest
    (match hd.1 with
      | some childClone => .cons childClone tl.1
      | none => tl.1,
     hd.2 ++ tl.2)
end

mutual
/-- Identities of a subtree in document (preorder) order. -/
def preorder : DomNode → List Nat
  | .node i cs => i :: preorderF cs
/-- Identities of a forest in document (preorder) order. -/
def preorderF : DomForest → List Nat
  | .nil => []
  | .cons t rest => preorder t ++ preorderF rest
end

mutual
/-- The identities a filtered clone is expected to retain: the node itself
followed by the retained part of its children (used for the root via
`keptIds` and hereditarily below). -/
def keptIds (f : DomNode → Bool) : DomNode → List Nat
  | .node i cs => i :: keptIdsF f cs
/-- Retained identities of a forest: a child on which `f` is false is
dropped together with its whole subtree. -/
def keptIdsF (f : DomNode → Bool) : DomForest → List Nat
  | .nil => []
  | .cons t rest => (if f t then keptIds f t else []) ++ keptIdsF f rest
end

mutual
/-- Number of nodes of a subtree. -/
def countN : DomNode → Nat
  | .node _ cs => 1 + countF cs
/-- Number of nodes of a forest. -/
def countF : DomForest → Nat
  | .nil => 0
  | .cons t rest => countN t + countF rest
end

/-! ## Pseudo-element capture (`clonePseudoElements`, `clonePseudoElement`) -/

/-- The resolved computed style of one pseudo-element as the host exposes
it to `clonePseudoElement`: the serialized `cssText` block (empty when the
host does not provide one), the resolved `content` property value, and the
individual properties with their priority flags (used only on the
no-`cssText` path). -/
structure PseudoStyle where
  cssText : Str
  content : Str
  props : List (Str × Str × Bool)
deriving DecidableEq

/-- The observable state of a clone that `clonePseudoElement` mutates: its
`class` attribute (`none` models `getAttribute('class') === null`) and the
text of the style elements appended as children. -/
structure CloneState where
  classAttr : Option Str
  children : List Str
deriving DecidableEq

/-- Translation of `formatCssText`: the serialized block followed by a
re-stated `content` declaration. -/
def formatCssText (style : PseudoStyle) : Str :=
  style.cssText ++ strOf " content: " ++ style.content ++ strOf ";"

/-- Translation of `formatCssProperties`: the individual declarations
joined by `; `, `!important` appended for priority properties. -/
def formatCssProperties (style : PseudoStyle) : Str :=
  List.intercalate (strOf "; ")
    (style.props.map fun p =>
      p.1 ++ strOf ": " ++ p.2.1 ++ (if p.2.2 then strOf " !important" else []))
  ++ strOf ";"

/-- Translation of `formatPseudoElementStyle(className, element, style)`:
the synthesized rule `.<class>:<element> \x7b <css> \x7d` (the element
string already carries its own leading colon in the source array
`[':before', ':after']`). -/
def formatPseudoElementStyle (className elementName : Str) (style : PseudoStyle) : Str :=
  let selector := strOf "." ++ className ++ strOf ":" ++ elementName
  let cssText := if style.cssText ≠ [] then formatCssText style else formatCssProperties style
  selector ++ strOf "\x7b" ++ cssText ++ strOf "\x7d"

/-- Translation of `clonePseudoElement(element)`: skip entirely when the
resolved `content` is empty or the literal `none`; otherwise rewrite the
`class` attribute — only when one is already present and truthy
(`if (currentClass)`) — and append the synthesized style rule as a child. -/
def clonePseudoElement (className elementName : Str) (style : PseudoStyle)
    (clone : CloneState) : CloneState :=
  let content := style.content
  if content = [] ∨ content = strOf "none" then clone
  else
    let clone1 :=
      match clone.classAttr with
      | some currentClass =>
        if currentClass ≠ [] then
          { clone with classAttr := some (currentClass ++ strOf " " ++ className) }
        else clone
      | none => clone
    { clone1 with
      children := clone1.children ++ [formatPseudoElementStyle className elementName style] }

/-- Translation of `clonePseudoElements`: process `:before` then `:after`,
each with its own freshly generated class name. -/
def clonePseudoElements (uidBefore uidAfter : Str) (styleBefore styleAfter : PseudoStyle)
    (clone : CloneState) : CloneState :=
  clonePseudoElement uidAfter (strOf ":after") styleAfter
    (clonePseudoElement uidBefore (strOf ":before") styleBefore clone)

/-! ## CSS Reference Inliner (`newInliner`, `util.parseExtension`,
`util.mimeType`, `util.dataAsUrl`)

The scanner embeds the source regular expression
`url\(['"]?([^'"]+?)['"]?\)` with JavaScript semantics: optional greedy
quote, lazy one-or-more non-quote capture, optional greedy quote, closing
parenthesis; `exec` in a `g` loop restarts after each match and otherwise
advances one position. -/

/-- The single-quote character (written by code so the source file stays
free of bare apostrophes). -/
def sq : Char := Char.ofNat 39

/-- The double-quote character. -/
def dq : Char := Char.ofNat 34

/-- Membership in the `['"]` character class of the source regex. -/
def isQuoteChar (c : Char) : Bool := c = sq || c = dq

/-- The literal `url(` prefix of the source regex. -/
def urlOpen : Str := strOf "url("

/-- Boolean test that `pat` is a prefix of `s`. -/
def hasPrefixSeq : Str → Str → Bool
  | [], _ => true
  | _ :: _, [] => false
  | p :: ps, c :: cs => p = c && hasPrefixSeq ps cs

/-- Strip `pat` from the front of `s`, when it is a prefix. -/
def dropPrefixSeq : Str → Str → Option Str
  | [], s => some s
  | _ :: _, [] => none
  | p :: ps, c :: cs => if p = c then dropPrefixSeq ps cs else none

/-- The `['"]?\)` tail of the scanner regex with its greedy optional
quote: consume a quote exactly when a `)` follows it, else require an
immediate `)`; returns the remainder after the match. -/
def matchClose : Str → Option Str
  | [] => none
  | [c] => if c = ')' then some [] else none
  | c :: d :: rest =>
    if isQuoteChar c then
      if d = ')' then some rest else none
    else if c = ')' then some (d :: rest)
    else none

/-- The lazy `([^'"]+?)` capture followed by `['"]?\)`: take at least one
non-quote character, then at each step first try to close (lazy), only
extending the capture when closing fails; returns the capture and the
remainder after the whole match. -/
def matchBody : Str → Option (Str × Str)
  | [] => none
  | c :: rest =>
    if isQuoteChar c then none
    else
      match matchClose rest with
      | some rem => some ([c], rem)
      | none =>
        match matchBody rest with
        | some capRem => some (c :: capRem.1, capRem.2)
        | none => none

/-- The part of the scanner regex after the literal `url(`: a greedy
optional opening quote (whose no-quote fallback can never succeed when the
head is a quote, since the capture class excludes quotes) followed by the
lazy capture and the close. -/
def matchAfterParen : Str → Option (Str × Str)
  | [] => none
  | c :: rest => if isQuoteChar c then matchBody rest else matchBody (c :: rest)

/-- Fuel-indexed `exec` loop of `URL_REGEX` with the `g` flag: at each
position try to match `url(...)`; on a match emit the capture and continue
after the match, otherwise advance one character. -/
def scanAux : Nat → Str → List Str
  | 0, _ => []
  | _ + 1, [] => []
  | fuel + 1, c :: rest =>
    match dropPrefixSeq urlOpen (c :: rest) with
    | some afterOpen =>
      match matchAfterParen afterOpen with
      | some capRem => capRem.1 :: scanAux fuel capRem.2
      | none => scanAux fuel rest
    | none => scanAux fuel rest

/-- All captures of `URL_REGEX` over a text, in match order (the fuel
`s.length` always suffices, `scanAux_fuel` below). -/
def scanUrls (s : Str) : List Str := scanAux s.length s

/-- Translation of `shouldProcess(string)`: whether `URL_REGEX` matches
anywhere (`string.search(URL_REGEX) !== -1`). -/
def shouldProcess (s : Str) : Bool := !(scanUrls s).isEmpty

/-- Translation of `isDataUrl(url)`: the anchored `/^(data:)/` search. -/
def isDataUrl (u : Str) : Bool := hasPrefixSeq (strOf "data:") u

/-- Translation of `readUrls(string)`: every capture that is not already a
data URI, in discovery order. -/
def readUrls (s : Str) : List Str := (scanUrls s).filter (fun u => !isDataUrl u)

/-- The lazy `([^\.\/]*?)` capture of `parseExtension`'s regex followed by
`(\?|$)`: first try to close at the current position (a `?` or the end of
the string), otherwise extend with a non-dot, non-slash character. -/
def extAfterDot : Str → Option Str
  | [] => some []
  | c :: rest =>
    if c = '?' then some []
    else if c = '.' ∨ c = '/' then none
    else
      match extAfterDot rest with
      | some cap => some (c :: cap)
      | none => none

/-- Translation of `parseExtension(url)`: the capture of the first match of
`/\.([^\.\/]*?)(\?|$)/`, or the empty string when there is none. -/
def parseExtension : Str → Str
  | [] => []
  | c :: rest =>
    if c = '.' then
      match extAfterDot rest with
      | some cap => cap
      | none => parseExtension rest
    else parseExtension rest

/-- JavaScript `toLowerCase` over the model string. -/
def toLowerStr (s : Str) : Str := s.map Char.toLower

/-- The fixed extension-to-MIME table of `util.mimes()`, as the object
lookup with `|| ''` fallback. -/
def mimeTypeFor (ext : Str) : Str :=
  if ext = strOf "woff" then strOf "application/font-woff"
  else if ext = strOf "woff2" then strOf "application/font-woff"
  else if ext = strOf "ttf" then strOf "application/font-truetype"
  else if ext = strOf "eot" then strOf "application/vnd.ms-fontobject"
  else if ext = strOf "png" then strOf "image/png"
  else if ext = strOf "jpg" then strOf "image/jpeg"
  else if ext = strOf "jpeg" then strOf "image/jpeg"
  else if ext = strOf "gif" then strOf "image/gif"
  else if ext = strOf "tiff" then strOf "image/tiff"
  else if ext = strOf "svg" then strOf "image/svg+xml"
  else []

/-- Translation of `util.mimeType(url)`. -/
def mimeType (url : Str) : Str := mimeTypeFor (toLowerStr (parseExtension url))

/-- Translation of `util.dataAsUrl(content, type)`. -/
def dataAsUrl (content mime : Str) : Str :=
  strOf "data:" ++ mime ++ strOf ";base64," ++ content

/-- The `['"]?\)` group-3 of `urlAsRegex` with its greedy optional quote,
returning the matched group text and the remainder. -/
def matchCloseQ : Str → Option (Str × Str)
  | [] => none
  | [c] => if c = ')' then some ([')'], []) else none
  | c :: d :: rest =>
    if isQuoteChar c then
      if d = ')' then some ([c, ')'], rest) else none
    else if c = ')' then some ([')'], d :: rest)
    else none

/-- After the optional opening quote of `urlAsRegex`: the escaped URL
matched literally, then the group-3 close. -/
def matchTailUrl (url : Str) (s : Str) : Option (Str × Str) :=
  match dropPrefixSeq url s with
  | some r => matchCloseQ r
  | none => none

/-- One attempted match of `urlAsRegex(url)` (the pattern
`(url\(['"]?)(<escaped url>)(['"]?\))`) at the current position, with the
greedy group-1 quote and its backtracking fallback; returns the group-1
text, the group-3 text and the remainder after the match. -/
def matchUrlPatAt (url : Str) (s : Str) : Option (Str × Str × Str) :=
  match dropPrefixSeq urlOpen s with
  | none => none
  | some r =>
    match r with
    | c :: r2 =>
      if isQuoteChar c then
        match matchTailUrl url r2 with
        | some g3rest => some (urlOpen ++ [c], g3rest.1, g3rest.2)
        | none =>
          match matchTailUrl url r with
          | some g3rest => some (urlOpen, g3rest.1, g3rest.2)
          | none => none
      else
        match matchTailUrl url r with
        | some g3rest => some (urlOpen, g3rest.1, g3rest.2)
        | none => none
    | [] => none

/-- Fuel-indexed global `string.replace(urlAsRegex(url), '$1'+repl+'$3')`:
each match is rewritten to group-1, the replacement, group-3, continuing
after the match; non-matching positions are copied.  (The `$`-token
processing JavaScript applies to the replacement template never fires for
the data URIs built here, which contain no dollar sign.) -/
def replaceUrlAux : Nat → Str → Str → Str → Str
  | 0, _, _, s => s
  | _ + 1, _, _, [] => []
  | fuel + 1, url, repl, c :: rest =>
    match matchUrlPatAt url (c :: rest) with
    | some m => m.1 ++ repl ++ m.2.1 ++ replaceUrlAux fuel url repl m.2.2
    | none => c :: replaceUrlAux fuel url repl rest

/-- Global replacement of every `url(<quote?><url><quote?>)` occurrence
(the fuel `s.length` always suffices, `replaceUrlAux_fuel` below). -/
def replaceUrlMatches (url repl s : Str) : Str := replaceUrlAux s.length url repl s

/-- Translation of `inline(string, url, baseUrl, get)`: resolve the URL
against a truthy base (the host's `resolveUrl` is passed in as `resolve`),
fetch it through `get`, build the data URI with the MIME type of the
unresolved reference text, and replace every occurrence of the reference
pattern. -/
def inline (resolve : Str → Str → Str) (get : Str → Str)
    (string url : Str) (baseUrl : Option Str) : Str :=
  let resolvedUrl :=
    match baseUrl with
    | some b => if b ≠ [] then resolve url b else url
    | none => url
  let data := get resolvedUrl
  let dataUrl := dataAsUrl data (mimeType url)
  replaceUrlMatches url dataUrl string

/-- Translation of `inlineAll(string, baseUrl, get)`: the no-match
short-circuit, then the sequential (promise-chained) inlining of every
discovered non-data reference of the original text. -/
def inlineAll (resolve : Str → Str → Str) (get : Str → Str)
    (string : Str) (baseUrl : Option Str) : Str :=
  if shouldProcess string then
    (readUrls string).foldl (fun acc url => inline resolve get acc url baseUrl) string
  else string

/-! ## Occurrence analysis helpers for the round-trip claim -/

/-- Whether `pat` occurs as a contiguous segment of `s`. -/
def containsSeq (pat : Str) : Str → Bool
  | [] => hasPrefixSeq pat []
  | s@(_ :: cs) => hasPrefixSeq pat s || containsSeq pat cs

/-- Number of positions of `s` at which `pat` starts (occurrences may
overlap; for the data-URI patterns counted here they cannot). -/
def countSeq (pat : Str) : Str → Nat
  | [] => if hasPrefixSeq pat [] then 1 else 0
  | s@(_ :: cs) => (if hasPrefixSeq pat s then 1 else 0) + countSeq pat cs

/-- Characters of a reference text that keep the scanner well behaved: not
a quote and not a parenthesis. -/
def urlSafeChar (c : Char) : Bool :=
  !isQuoteChar c && !(c = ')') && !(c = '(')

/-- The base64 alphabet (with padding), as produced by the host's
`FileReader` encoding. -/
def base64Char (c : Char) : Bool :=
  c.isAlphanum || c = '+' || c = '/' || c = '='

/-- The five-character prefix every embedded data reference starts with. -/
def dataColon : Str := strOf "data:"

/-! ## Theorems -/

/-! ### Helper lemmas about the fetch model -/

theorem splitOnComma_append_of_not_mem (pre post : Str) (hpre : ',' ∉ pre) :
    splitOnComma (pre ++ ',' :: post) = pre :: splitOnComma post := by
  induction pre with
  | nil => simp [splitOnComma]
  | cons c cs ih =>
    have hc : c ≠ ',' := fun h => hpre (h ▸ List.mem_cons_self c cs)
    have hcs : ',' ∉ cs := fun h => hpre (List.mem_cons_of_mem c h)
    simp only [List.cons_append, splitOnComma, if_neg hc, List.append_eq, ih hcs]

theorem splitOnComma_of_not_mem (s : Str) (hs : ',' ∉ s) :
    splitOnComma s = [s] := by
  induction s with
  | nil => rfl
  | cons c cs ih =>
    have hc : c ≠ ',' := fun h => hs (h ▸ List.mem_cons_self c cs)
    have hcs : ',' ∉ cs := fun h => hs (List.mem_cons_of_mem c h)
    simp only [splitOnComma, if_neg hc, ih hcs]

theorem extractPlaceholder_of_dataUri (opts : ImplOptions) (pre post : Str)
    (hopt : opts.imagePlaceholder = some (pre ++ ',' :: post))
    (hpre : ',' ∉ pre) (hpost : ',' ∉ post) (hne : post ≠ []) :
    extractPlaceholder opts = some post := by
  have hsplit : splitOnComma (pre ++ ',' :: post) = pre :: splitOnComma post :=
    splitOnComma_append_of_not_mem pre post hpre
  simp [extractPlaceholder, hopt, hsplit, splitOnComma_of_not_mem post hpost, hne]

theorem getAndEncode_isResolved (url : Str) (now : Nat) (opts : ImplOptions) (ev : FetchEvent) :
    ((getAndEncode url now opts ev).1).isResolved = true := by
  cases ev with
  | response status body =>
    by_cases h : status = 200
    · simp only [getAndEncode, if_pos h]
      cases (splitOnComma body)[1]? <;> simp [FetchOutcome.isResolved]
    · simp only [getAndEncode, if_neg h]
      cases extractPlaceholder opts <;> simp [FetchOutcome.isResolved, failOutcome]
  | timeout =>
    simp only [getAndEncode]
    cases extractPlaceholder opts <;> simp [FetchOutcome.isResolved, failOutcome]

/-! ## Claim theorems about the Resource Fetcher and the shared options -/

/-- C9: every top-level conversion starts with `copyOptions`, which
overwrites (never merges) the three fields of the shared configuration
object: each becomes the supplied value when defined and the built-in
default (`undefined` placeholder, `false` flags) otherwise, independently
of whatever any previous call had left there. -/
theorem copyOptions_overwrites (prev prev' : ImplOptions) (options : RenderOptions) :
    copyOptions prev options = copyOptions prev' options
    ∧ (copyOptions prev options).imagePlaceholder =
        (match options.imagePlaceholder with
          | some v => some v
          | none => defaultOptions.imagePlaceholder)
    ∧ (copyOptions prev options).cacheBust = options.cacheBust.getD defaultOptions.cacheBust
    ∧ (copyOptions prev options).useCredentials =
        options.useCredentials.getD defaultOptions.useCredentials
    ∧ defaultOptions.imagePlaceholder = none
    ∧ defaultOptions.cacheBust = false
    ∧ defaultOptions.useCredentials = false := by
  rcases options with ⟨ip, cb, uc⟩
  refine ⟨?_, ?_, ?_, ?_, rfl, rfl, rfl⟩ <;>
    cases ip <;> cases cb <;> cases uc <;> rfl

/-- C10: the promise returned by `getAndEncode` always settles successfully:
it resolves with the post-comma payload of the `FileReader` data URL on a
200 response, with the configured placeholder's payload on a non-success
status or a timeout when one is available, and with the empty string (after
logging exactly one error message) when no placeholder payload is
available; it never rejects. -/
theorem getAndEncode_always_resolves (url : Str) (now : Nat) (opts : ImplOptions) :
    (∀ ev, ((getAndEncode url now opts ev).1).isResolved = true)
    ∧ (∀ body content, (splitOnComma body)[1]? = some content →
         getAndEncode url now opts (.response 200 body) = (.resolvedStr content, []))
    ∧ (∀ status body p, status ≠ 200 → extractPlaceholder opts = some p →
         getAndEncode url now opts (.response status body) = (.resolvedStr p, []))
    ∧ (∀ p, extractPlaceholder opts = some p →
         getAndEncode url now opts .timeout = (.resolvedStr p, []))
    ∧ (∀ status body, status ≠ 200 → extractPlaceholder opts = none →
         (getAndEncode url now opts (.response status body)).1 = .resolvedStr []
         ∧ (getAndEncode url now opts (.response status body)).2.length = 1)
    ∧ (extractPlaceholder opts = none →
         (getAndEncode url now opts .timeout).1 = .resolvedStr []
         ∧ (getAndEncode url now opts .timeout).2.length = 1) := by
  refine ⟨fun ev => getAndEncode_isResolved url now opts ev, ?_, ?_, ?_, ?_, ?_⟩
  · intro body content h
    simp [getAndEncode, h]
  · intro status body p h hp
    simp [getAndEncode, if_neg h, hp]
  · intro p hp
    simp [getAndEncode, hp]
  · intro status body h hp
    simp [getAndEncode, if_neg h, hp, failOutcome]
  · intro hp
    simp [getAndEncode, hp, failOutcome]

/-- Witness for `getAndEncode_always_resolves` at a concrete failing fetch
with no placeholder configured. -/
theorem getAndEncode_always_resolves_witness :
    (500 ≠ 200) ∧ extractPlaceholder ⟨none, false, false⟩ = none
    ∧ ((getAndEncode (strOf "a.png") 0 ⟨none, false, false⟩ (.response 500 [])).1 = .resolvedStr []
       ∧ (getAndEncode (strOf "a.png") 0 ⟨none, false, false⟩ (.response 500 [])).2.length = 1) :=
  ⟨by decide, by decide,
    (getAndEncode_always_resolves (strOf "a.png") 0 ⟨none, false, false⟩).2.2.2.2.1
      500 [] (by decide) (by decide)⟩

/-- C7: a fetch that times out behaves identically to a fetch completing
with a non-success status: with a configured placeholder payload both
resolve with that payload, and without one both take the same `fail`
branch. -/
theorem timeout_equiv_nonSuccess (url : Str) (now : Nat) (opts : ImplOptions)
    (status : Nat) (body : Str) (h : status ≠ 200) :
    TimeoutMatchesNonSuccess url now opts status body := by
  refine ⟨?_, ?_, ?_⟩
  · cases hp : extractPlaceholder opts <;>
      simp [getAndEncode, if_neg h, hp, failOutcome]
  · intro pre post hpre hpost hne hopt
    have hp := extractPlaceholder_of_dataUri opts pre post hopt hpre hpost hne
    constructor <;> simp [getAndEncode, if_neg h, hp]
  · intro hp
    constructor <;> simp [getAndEncode, if_neg h, hp]

/-- Witness for `timeout_equiv_nonSuccess` at a concrete 404 response with
a configured placeholder. -/
theorem timeout_equiv_nonSuccess_witness :
    (404 ≠ 200) ∧ TimeoutMatchesNonSuccess (strOf "a.png") 0
      ⟨some (strOf "data:image/png;base64,BBBB"), false, false⟩ 404 [] :=
  ⟨by decide, timeout_equiv_nonSuccess (strOf "a.png") 0
    ⟨some (strOf "data:image/png;base64,BBBB"), false, false⟩ 404 [] (by decide)⟩

/-- C1 (code-bug evidence): at a concrete failing fetch of `a.png` with no
placeholder configured — a 500 response and a timeout — `getAndEncode`
logs the fetch-error message (which carries the URL and reason) and then
RESOLVES with the empty string, so no rejection exists that could propagate
to the enclosing stages; the conversion does not end rejected, contrary to
the claim and to the source's own JSDoc (`default behaviour is to fail
fast on images we can't fetch`). -/
theorem fetchFailure_resolves_empty :
    getAndEncode (strOf "a.png") 0 ⟨none, false, false⟩ (.response 500 []) =
      (.resolvedStr [], [strOf "cannot fetch resource: a.png, status: 500"])
    ∧ getAndEncode (strOf "a.png") 0 ⟨none, false, false⟩ .timeout =
      (.resolvedStr [], [strOf "timeout of 30000ms occured while fetching resource: a.png"])
    ∧ (∀ ev, ((getAndEncode (strOf "a.png") 0 ⟨none, false, false⟩ ev).1).isResolved = true) :=
  ⟨by decide, by decide,
    fun ev => getAndEncode_isResolved (strOf "a.png") 0 ⟨none, false, false⟩ ev⟩

/-- C4 (counterexample): with an explicit `width` of 50 and a node whose
scroll-box width is 100, the serialized container is 50 wide — not the
larger of the two dimensions (100) the claim promises. -/
theorem containerWidth_not_max_cex :
    toSvgContainerWidth (some 50) ⟨100, 100, 0, 0, 0, 0⟩ = 50
    ∧ max 50 (nodeWidth ⟨100, 100, 0, 0, 0, 0⟩) = 100
    ∧ toSvgContainerWidth (some 50) ⟨100, 100, 0, 0, 0, 0⟩ ≠
        max 50 (nodeWidth ⟨100, 100, 0, 0, 0, 0⟩) := by
  refine ⟨by decide, by decide, by decide⟩

/-- C4 (amended): the serialized vector container — and, multiplied by the
scale factor, the raster surface derived from it — is sized to the
explicitly requested width/height when supplied and non-zero, and to the
source node's scroll-box dimension (scroll extent plus the resolved border
widths on each side) otherwise, in each dimension. -/
theorem containerSize_explicit_else_scrollBox (optW optH : Option Int)
    (m : NodeMetrics) (scale : Int) :
    (∀ w, optW = some w → w ≠ 0 → toSvgContainerWidth optW m = w)
    ∧ ((optW = none ∨ optW = some 0) →
        toSvgContainerWidth optW m =
          m.scrollWidth + m.borderLeftWidth + m.borderRightWidth)
    ∧ (∀ h, optH = some h → h ≠ 0 → toSvgContainerHeight optH m = h)
    ∧ ((optH = none ∨ optH = some 0) →
        toSvgContainerHeight optH m =
          m.scrollHeight + m.borderTopWidth + m.borderBottomWidth)
    ∧ newCanvasWidth optW m scale = toSvgContainerWidth optW m * scale
    ∧ newCanvasHeight optH m scale = toSvgContainerHeight optH m * scale := by
  refine ⟨?_, ?_, ?_, ?_, rfl, rfl⟩
  · intro w hw hne
    subst hw
    simp [toSvgContainerWidth, jsOrSize, hne]
  · rintro (h | h) <;> subst h <;> simp [toSvgContainerWidth, jsOrSize, nodeWidth]
  · intro h hh hne
    subst hh
    simp [toSvgContainerHeight, jsOrSize, hne]
  · rintro (h | h) <;> subst h <;> simp [toSvgContainerHeight, jsOrSize, nodeHeight]

/-- Witness for `containerSize_explicit_else_scrollBox` with an explicit
width of 50 and no explicit height on a 100-wide, 80-high scroll box. -/
theorem containerSize_explicit_else_scrollBox_witness :
    ((some 50 : Option Int) = some 50) ∧ ((50 : Int) ≠ 0)
    ∧ ((none : Option Int) = none ∨ (none : Option Int) = some 0)
    ∧ toSvgContainerWidth (some 50) ⟨100, 80, 1, 1, 2, 2⟩ = 50
    ∧ toSvgContainerHeight none ⟨100, 80, 1, 1, 2, 2⟩ = 80 + 2 + 2 := by
  refine ⟨rfl, by decide, Or.inl rfl, ?_, ?_⟩
  · exact (containerSize_explicit_else_scrollBox (some 50) none ⟨100, 80, 1, 1, 2, 2⟩ 1).1
      50 rfl (by decide)
  · exact (containerSize_explicit_else_scrollBox (some 50) none ⟨100, 80, 1, 1, 2, 2⟩ 1).2.2.2.1
      (Or.inl rfl)

/-- C5: for a node with scroll width 200, scroll height 100, left/right
border widths 1px, top/bottom border widths 2px, and no explicit
width/height override, the computed container size is exactly 202 by 104. -/
theorem containerSize_202_by_104 :
    toSvgContainerWidth none ⟨200, 100, 1, 1, 2, 2⟩ = 202
    ∧ toSvgContainerHeight none ⟨200, 100, 1, 1, 2, 2⟩ = 104 := by
  refine ⟨by decide, by decide⟩

mutual
theorem cloneNodeTraced_fst (filter : Option (DomNode → Bool)) (root : Bool) (t : DomNode) :
    (cloneNodeTraced filter root t).1 = cloneNode filter root t := by
  cases t with
  | node i cs =>
    by_cases h : (!root && filterRejects filter (.node i cs)) = true
    · simp [cloneNodeTraced, cloneNode, h]
    · simp [cloneNodeTraced, cloneNode, h, cloneChildrenTraced_fst filter cs]
theorem cloneChildrenTraced_fst (filter : Option (DomNode → Bool)) (cs : DomForest) :
    (cloneChildrenTraced filter cs).1 = cloneChildrenInOrder filter cs := by
  cases cs with
  | nil => rfl
  | cons c rest =>
    simp only [cloneChildrenTraced, cloneChildrenInOrder,
      cloneNodeTraced_fst filter false c, cloneChildrenTraced_fst filter rest]
end

mutual
theorem cloneNode_nonroot_spec (f : DomNode → Bool) (t : DomNode) :
    (f t = true → ∃ c, cloneNode (some f) false t = some c ∧ preorder c = keptIds f t)
    ∧ (f t = false → cloneNode (some f) false t = none) := by
  cases t with
  | node i cs =>
    constructor
    · intro hf
      refine ⟨.node i (cloneChildrenInOrder (some f) cs), ?_, ?_⟩
      · simp [cloneNode, filterRejects, hf]
      · simp [preorder, keptIds, cloneForest_preorder f cs]
    · intro hf
      simp [cloneNode, filterRejects, hf]
theorem cloneForest_preorder (f : DomNode → Bool) (cs : DomForest) :
    preorderF (cloneChildrenInOrder (some f) cs) = keptIdsF f cs := by
  cases cs with
  | nil => rfl
  | cons c rest =>
    by_cases hf : f c = true
    · obtain ⟨cc, hcc, hpre⟩ := (cloneNode_nonroot_spec f c).1 hf
      simp [cloneChildrenInOrder, hcc, preorderF, keptIdsF, hf, hpre,
        cloneForest_preorder f rest]
    · have hfc : f c = false := by
        cases h : f c
        · rfl
        · exact absurd h hf
      have hnone := (cloneNode_nonroot_spec f c).2 hfc
      simp [cloneChildrenInOrder, hnone, keptIdsF, hfc,
        cloneForest_preorder f rest]
end

mutual
theorem keptIds_sublist (f : DomNode → Bool) (t : DomNode) :
    List.Sublist (keptIds f t) (preorder t) := by
  cases t with
  | node i cs =>
    exact List.Sublist.cons₂ i (keptIdsF_sublist f cs)
theorem keptIdsF_sublist (f : DomNode → Bool) (cs : DomForest) :
    List.Sublist (keptIdsF f cs) (preorderF cs) := by
  cases cs with
  | nil => exact List.Sublist.refl []
  | cons t rest =>
    by_cases hf : f t = true
    · simpa [keptIdsF, hf] using
        List.Sublist.append (keptIds_sublist f t) (keptIdsF_sublist f rest)
    · have hfc : f t = false := by
        cases h : f t
        · rfl
        · exact absurd h hf
      simpa [keptIdsF, hfc] using
        (keptIdsF_sublist f rest).trans (List.sublist_append_right (preorder t) (preorderF rest))
end

mutual
theorem traceNode_count_le (filter : Option (DomNode → Bool)) (t : DomNode) :
    ∀ u ∈ (cloneNodeTraced filter false t).2, countN u ≤ countN t := by
  cases t with
  | node i cs =>
    intro u hu
    by_cases h : (!false && filterRejects filter (.node i cs)) = true
    · simp only [cloneNodeTraced, if_pos h] at hu
      have : u = DomNode.node i cs := by
        rcases filter with _ | f
        · simp at hu
        · simpa using hu
      exact le_of_eq (congrArg countN this)
    · simp only [cloneNodeTraced, if_neg h, List.mem_append] at hu
      rcases hu with hu | hu
      · have : u = DomNode.node i cs := by
          rcases filter with _ | f
          · simp at hu
          · simpa using hu
        exact le_of_eq (congrArg countN this)
      · have := traceForest_count_le filter cs u hu
        simp only [countN]
        omega
theorem traceForest_count_le (filter : Option (DomNode → Bool)) (cs : DomForest) :
    ∀ u ∈ (cloneChildrenTraced filter cs).2, countN u ≤ countF cs := by
  cases cs with
  | nil => intro u hu; simp [cloneChildrenTraced] at hu
  | cons c rest =>
    intro u hu
    simp only [cloneChildrenTraced, List.mem_append] at hu
    rcases hu with hu | hu
    · have := traceNode_count_le filter c u hu
      simp only [countF]
      omega
    · have := traceForest_count_le filter rest u hu
      simp only [countF]
      omega
end

/-- At the root, the guard never drops and the filter is never consulted on
the node itself: the trace of a root clone is exactly the trace of cloning
its children. -/
theorem cloneNodeTraced_root (filter : Option (DomNode → Bool)) (i : Nat) (cs : DomForest) :
    (cloneNodeTraced filter true (.node i cs)).2 = (cloneChildrenTraced filter cs).2 := by
  simp [cloneNodeTraced]

/-- C2: for every source subtree and filter predicate, the clone exists
(the root is always included and never tested), its document-order
identities are exactly the hereditarily retained ones — a non-root node on
which the filter is false is omitted together with its entire subtree, not
replaced — and the retained identities form a sublist of the source's
document order (no duplication, no reordering); moreover the filter is
never evaluated on the root node. -/
theorem cloneNode_filter_exactness (f : DomNode → Bool) (t : DomNode) :
    (∃ c, cloneNode (some f) true t = some c ∧ preorder c = keptIds f t
       ∧ rootId c = rootId t)
    ∧ List.Sublist (keptIds f t) (preorder t)
    ∧ t ∉ (cloneNodeTraced (some f) true t).2 := by
  rcases t with ⟨i, cs⟩
  refine ⟨⟨.node i (cloneChildrenInOrder (some f) cs), ?_, ?_, rfl⟩,
    keptIds_sublist f (.node i cs), ?_⟩
  · simp [cloneNode]
  · simp [preorder, keptIds, cloneForest_preorder f cs]
  · intro hmem
    rw [cloneNodeTraced_root] at hmem
    have := traceForest_count_le (some f) cs _ hmem
    simp only [countN] at this
    omega

/-- C3 (code-bug evidence): on a clone with no `class` attribute and a
`:before` whose resolved content is the non-empty, non-`none` value
`"x"`, `clonePseudoElement` appends exactly one synthesized rule but adds
no class name at all (the `if (currentClass)` guard skips the class-list
mutation when `getAttribute('class')` is null or empty), so the appended
rule's selector can never match the clone — contrary to the claim that
exactly one class name is added.  The skip branch (content `none`) and the
pre-existing-class branch behave as the claim describes. -/
theorem clonePseudoElement_class_not_added :
    clonePseudoElement (strOf "u0001") (strOf ":before")
        ⟨strOf "color: red;", strOf "\"x\"", []⟩ ⟨none, []⟩ =
      ⟨none, [strOf ".u0001::before\x7bcolor: red; content: \"x\";\x7d"]⟩
    ∧ (clonePseudoElement (strOf "u0001") (strOf ":before")
        ⟨strOf "color: red;", strOf "\"x\"", []⟩ ⟨none, []⟩).classAttr = none
    ∧ (clonePseudoElement (strOf "u0001") (strOf ":before")
        ⟨strOf "color: red;", strOf "\"x\"", []⟩ ⟨none, []⟩).children.length = 1
    ∧ clonePseudoElement (strOf "u0001") (strOf ":before")
        ⟨strOf "color: red;", strOf "\"x\"", []⟩ ⟨some [], []⟩ =
      ⟨some [], [strOf ".u0001::before\x7bcolor: red; content: \"x\";\x7d"]⟩
    ∧ clonePseudoElement (strOf "u0002") (strOf ":before")
        ⟨strOf "color: red;", strOf "none", []⟩ ⟨none, []⟩ = ⟨none, []⟩
    ∧ clonePseudoElement (strOf "u0002") (strOf ":after")
        ⟨strOf "color: red;", [], []⟩ ⟨some (strOf "x"), []⟩ = ⟨some (strOf "x"), []⟩
    ∧ clonePseudoElement (strOf "u0003") (strOf ":before")
        ⟨strOf "color: red;", strOf "\"x\"", []⟩ ⟨some (strOf "x"), []⟩ =
      ⟨some (strOf "x u0003"),
        [strOf ".u0003::before\x7bcolor: red; content: \"x\";\x7d"]⟩ := by
  refine ⟨by decide, by decide, by decide, by decide, by decide, by decide, by decide⟩

/-! ### Scanner lemmas -/

theorem dropPrefixSeq_length (pat : Str) : ∀ s r : Str,
    dropPrefixSeq pat s = some r → r.length + pat.length = s.length := by
  induction pat with
  | nil =>
    intro s r h
    simp [dropPrefixSeq] at h
    simp [h]
  | cons p ps ih =>
    intro s r h
    cases s with
    | nil => simp [dropPrefixSeq] at h
    | cons c cs =>
      simp only [dropPrefixSeq] at h
      split at h
      · have := ih cs r h
        simp only [List.length_cons]
        omega
      · exact absurd h (by simp)

theorem matchClose_length (s r : Str) (h : matchClose s = some r) :
    r.length < s.length := by
  match s with
  | [] => exact absurd h (by simp [matchClose])
  | [c] =>
    simp only [matchClose] at h
    split at h
    · cases h
      simp
    · exact absurd h (by simp)
  | c :: d :: rest =>
    simp only [matchClose] at h
    split at h
    · split at h
      · cases h
        simp only [List.length_cons]
        omega
      · exact absurd h (by simp)
    · split at h
      · cases h
        simp only [List.length_cons]
        omega
      · exact absurd h (by simp)

theorem matchBody_length (s : Str) : ∀ capRem : Str × Str,
    matchBody s = some capRem → capRem.2.length < s.length := by
  induction s with
  | nil => intro capRem h; exact absurd h (by simp [matchBody])
  | cons c rest ih =>
    intro capRem h
    simp only [matchBody] at h
    split at h
    · exact absurd h (by simp)
    · split at h
      · rename_i rem hmc
        cases h
        have := matchClose_length rest rem hmc
        simp only [List.length_cons]
        omega
      · split at h
        · rename_i sub hmb
          cases h
          have := ih sub hmb
          simp only [List.length_cons]
          omega
        · exact absurd h (by simp)

theorem matchAfterParen_length (s : Str) (capRem : Str × Str)
    (h : matchAfterParen s = some capRem) : capRem.2.length < s.length := by
  cases s with
  | nil => exact absurd h (by simp [matchAfterParen])
  | cons c rest =>
    simp only [matchAfterParen] at h
    split at h
    · have := matchBody_length rest capRem h
      simp only [List.length_cons]
      omega
    · exact matchBody_length (c :: rest) capRem h

theorem scanAux_fuel : ∀ fuel1 fuel2 (s : Str), s.length ≤ fuel1 → s.length ≤ fuel2 →
    scanAux fuel1 s = scanAux fuel2 s := by
  intro fuel1
  induction fuel1 with
  | zero =>
    intro fuel2 s h1 h2
    have : s = [] := List.length_eq_zero.mp (Nat.le_zero.mp h1)
    subst this
    cases fuel2 <;> rfl
  | succ f1 ih =>
    intro fuel2 s h1 h2
    cases s with
    | nil => cases fuel2 <;> rfl
    | cons c rest =>
      cases fuel2 with
      | zero => simp at h2
      | succ f2 =>
        have hr1 : rest.length ≤ f1 := by simp at h1; omega
        have hr2 : rest.length ≤ f2 := by simp at h2; omega
        simp only [scanAux]
        split
        · rename_i afterOpen hdp
          split
          · rename_i capRem hma
            have hlen1 := dropPrefixSeq_length urlOpen (c :: rest) afterOpen hdp
            have hlen2 := matchAfterParen_length afterOpen capRem hma
            have hopen : urlOpen.length = 4 := rfl
            rw [ih f2 capRem.2 (by simp at hlen1; omega) (by simp at hlen1; omega)]
          · rw [ih f2 rest hr1 hr2]
        · rw [ih f2 rest hr1 hr2]

theorem scanUrls_cons (c : Char) (rest : Str) :
    scanUrls (c :: rest) =
      match dropPrefixSeq urlOpen (c :: rest) with
      | some afterOpen =>
        match matchAfterParen afterOpen with
        | some capRem => capRem.1 :: scanUrls capRem.2
        | none => scanUrls rest
      | none => scanUrls rest := by
  show scanAux (rest.length + 1) (c :: rest) = _
  simp only [scanAux]
  split
  · rename_i afterOpen hdp
    split
    · rename_i capRem hma
      have hlen1 := dropPrefixSeq_length urlOpen (c :: rest) afterOpen hdp
      have hlen2 := matchAfterParen_length afterOpen capRem hma
      have hopen : urlOpen.length = 4 := rfl
      rw [scanAux_fuel rest.length capRem.2.length capRem.2 (by simp at hlen1; omega) le_rfl]
      rfl
    · rfl
  · rfl

/-! ### Claim theorems about the CSS Reference Inliner (identity cases) -/

/-- C6: `inlineAll` is the identity on a text without any `url(...)` match,
and on a text all of whose `url(...)` references are already `data:` URIs. -/
theorem inlineAll_identity (resolve : Str → Str → Str) (get : Str → Str)
    (s : Str) (baseUrl : Option Str) :
    (scanUrls s = [] → inlineAll resolve get s baseUrl = s)
    ∧ ((∀ u ∈ scanUrls s, isDataUrl u = true) → inlineAll resolve get s baseUrl = s) := by
  constructor
  · intro h
    simp [inlineAll, shouldProcess, h]
  · intro h
    have hr : readUrls s = [] := by
      rw [readUrls, List.filter_eq_nil_iff]
      intro u hu
      simp [h u hu]
    by_cases hp : shouldProcess s = true
    · simp [inlineAll, hp, hr]
    · simp [inlineAll, hp]

/-- Witness for `inlineAll_identity` on a text with no reference and on a
text whose only reference is already a data URI. -/
theorem inlineAll_identity_witness :
    scanUrls (strOf "no references here") = []
    ∧ inlineAll (fun u _ => u) (fun _ => []) (strOf "no references here") none =
        strOf "no references here"
    ∧ (∀ u ∈ scanUrls (strOf "url(data:image/png;base64,AAA)"), isDataUrl u = true)
    ∧ inlineAll (fun u _ => u) (fun _ => []) (strOf "url(data:image/png;base64,AAA)") none =
        strOf "url(data:image/png;base64,AAA)" :=
  ⟨by decide,
   (inlineAll_identity (fun u _ => u) (fun _ => []) (strOf "no references here") none).1
     (by decide),
   by decide,
   (inlineAll_identity (fun u _ => u) (fun _ => []) (strOf "url(data:image/png;base64,AAA)") none).2
     (by decide)⟩

theorem urlOpen_eq : urlOpen = 'u' :: 'r' :: 'l' :: '(' :: [] := rfl

theorem dataColon_eq : dataColon = 'd' :: 'a' :: 't' :: 'a' :: ':' :: [] := rfl

theorem hasPrefixSeq_append_self (p : Str) : ∀ s : Str, hasPrefixSeq p (p ++ s) = true := by
  induction p with
  | nil => intro s; rfl
  | cons c cs ih => intro s; simp [hasPrefixSeq, ih s]

theorem dropPrefixSeq_append_self (p : Str) : ∀ s : Str, dropPrefixSeq p (p ++ s) = some s := by
  induction p with
  | nil => intro s; rfl
  | cons c cs ih => intro s; simp [dropPrefixSeq, ih s]

theorem dropPrefixSeq_eq_none_iff (p : Str) : ∀ s : Str,
    dropPrefixSeq p s = none ↔ hasPrefixSeq p s = false := by
  induction p with
  | nil => intro s; simp [dropPrefixSeq, hasPrefixSeq]
  | cons c cs ih =>
    intro s
    cases s with
    | nil => simp [dropPrefixSeq, hasPrefixSeq]
    | cons d ds =>
      by_cases hcd : c = d
      · simp [dropPrefixSeq, hasPrefixSeq, hcd, ih ds]
      · simp [dropPrefixSeq, hasPrefixSeq, hcd]

theorem hasPrefixSeq_append_cases (pat : Str) : ∀ x y : Str,
    hasPrefixSeq pat (x ++ y) = true →
    hasPrefixSeq pat x = true
    ∨ (∃ k, k = x.length ∧ k < pat.length ∧ pat.take k = x
        ∧ hasPrefixSeq (pat.drop k) y = true) := by
  induction pat with
  | nil => intro x y _; exact Or.inl rfl
  | cons p ps ih =>
    intro x y h
    cases x with
    | nil =>
      exact Or.inr ⟨0, rfl, by simp, rfl, h⟩
    | cons c cs =>
      simp only [List.cons_append, hasPrefixSeq, Bool.and_eq_true, decide_eq_true_eq] at h
      obtain ⟨hpc, hrest⟩ := h
      rcases ih cs y hrest with hl | ⟨k, hk, hklt, htake, hdrop⟩
      · left
        simp [hasPrefixSeq, hpc, hl]
      · right
        refine ⟨k + 1, by simp [hk], by simp; omega, ?_, hdrop⟩
        simp [List.take_succ_cons, htake, hpc]

theorem hasPrefixSeq_mem (pat : Str) : ∀ s : Str, hasPrefixSeq pat s = true →
    ∀ c ∈ pat, c ∈ s := by
  induction pat with
  | nil => intro s _ c hc; simp at hc
  | cons p ps ih =>
    intro s h c hc
    cases s with
    | nil => simp [hasPrefixSeq] at h
    | cons d ds =>
      simp only [hasPrefixSeq, Bool.and_eq_true, decide_eq_true_eq] at h
      obtain ⟨hpd, hrest⟩ := h
      rcases List.mem_cons.mp hc with hc | hc
      · exact hc ▸ hpd ▸ List.mem_cons_self d ds
      · exact List.mem_cons_of_mem d (ih ds hrest c hc)

theorem hasPrefixSeq_append_left (p : Str) : ∀ q s : Str,
    hasPrefixSeq (p ++ q) s = true → hasPrefixSeq p s = true := by
  induction p with
  | nil => intro q s _; rfl
  | cons c cs ih =>
    intro q s h
    cases s with
    | nil => simp [hasPrefixSeq] at h
    | cons d ds =>
      simp only [List.cons_append, hasPrefixSeq, Bool.and_eq_true] at h ⊢
      exact ⟨h.1, ih q ds h.2⟩

theorem containsSeq_of_append_prefix (pat : Str) : ∀ x₁ x₂ : Str,
    hasPrefixSeq pat x₂ = true → containsSeq pat (x₁ ++ x₂) = true := by
  intro x₁
  induction x₁ with
  | nil =>
    intro x₂ h
    cases x₂ with
    | nil => simpa [containsSeq] using h
    | cons c cs => simp [containsSeq, h]
  | cons c cs ih =>
    intro x₂ h
    simp only [List.cons_append, containsSeq, Bool.or_eq_true]
    exact Or.inr (ih x₂ h)

theorem countSeq_eq_zero_of_not_contains (pat : Str) : ∀ s : Str,
    containsSeq pat s = false → countSeq pat s = 0 := by
  intro s
  induction s with
  | nil =>
    intro h
    simp only [containsSeq] at h
    simp [countSeq, h]
  | cons c cs ih =>
    intro h
    simp only [containsSeq, Bool.or_eq_false_iff] at h
    simp [countSeq, h.1, ih h.2]

theorem countSeq_append_skip (pat : Str) : ∀ x y : Str,
    (∀ x₁ x₂ : Str, x = x₁ ++ x₂ → x₂ ≠ [] → hasPrefixSeq pat (x₂ ++ y) = false) →
    countSeq pat (x ++ y) = countSeq pat y := by
  intro x
  induction x with
  | nil => intro y _; rfl
  | cons c cs ih =>
    intro y H
    have h0 : hasPrefixSeq pat (c :: cs ++ y) = false := H [] (c :: cs) rfl (by simp)
    have hrec := ih y (fun x₁ x₂ hx hne => H (c :: x₁) x₂ (by simp [hx]) hne)
    simp only [List.cons_append, countSeq]
    rw [List.cons_append] at h0
    simp [h0, hrec]

theorem countSeq_le_of_pattern_extends (p q : Str) : ∀ s : Str,
    countSeq (p ++ q) s ≤ countSeq p s := by
  intro s
  induction s with
  | nil =>
    simp only [countSeq]
    by_cases h : hasPrefixSeq (p ++ q) [] = true
    · rw [if_pos h, if_pos (hasPrefixSeq_append_left p q [] h)]
    · rw [if_neg h]
      split <;> omega
  | cons c cs ih =>
    simp only [countSeq]
    by_cases h : hasPrefixSeq (p ++ q) (c :: cs) = true
    · rw [if_pos h, if_pos (hasPrefixSeq_append_left p q (c :: cs) h)]
      omega
    · rw [if_neg h]
      split <;> omega

theorem countSeq_append_ge (pat : Str) : ∀ x y : Str,
    countSeq pat y ≤ countSeq pat (x ++ y) := by
  intro x y
  induction x with
  | nil => simp
  | cons c cs ih =>
    calc countSeq pat y ≤ countSeq pat (cs ++ y) := ih
    _ ≤ countSeq pat (c :: (cs ++ y)) := by
        simp only [countSeq]
        split <;> omega
    _ = countSeq pat ((c :: cs) ++ y) := by rw [List.cons_append]

theorem countSeq_self_pos (pat z : Str) : 1 ≤ countSeq pat (pat ++ z) := by
  have hpre := hasPrefixSeq_append_self pat z
  cases hp : pat ++ z with
  | nil =>
    rw [hp] at hpre
    simp only [countSeq]
    rw [if_pos hpre]
  | cons c cs =>
    rw [hp] at hpre
    simp only [countSeq]
    rw [if_pos hpre]
    omega

theorem urlSafeChar_spec (c : Char) (h : urlSafeChar c = true) :
    isQuoteChar c = false ∧ c ≠ ')' ∧ c ≠ '(' := by
  simp only [urlSafeChar, Bool.and_eq_true, Bool.not_eq_true', decide_eq_false_iff_not] at h
  exact ⟨h.1.1, h.1.2, h.2⟩

theorem base64_safe (c : Char) (h : base64Char c = true) : urlSafeChar c = true := by
  have h1 : c ≠ sq := fun e => absurd (e ▸ h) (by decide)
  have h2 : c ≠ dq := fun e => absurd (e ▸ h) (by decide)
  have h3 : c ≠ ')' := fun e => absurd (e ▸ h) (by decide)
  have h4 : c ≠ '(' := fun e => absurd (e ▸ h) (by decide)
  simp [urlSafeChar, isQuoteChar, h1, h2, h3, h4]

theorem dropPrefix_skip_H (a : Str) (ha : containsSeq urlOpen a = false) (tl : Str) :
    ∀ x₁ x₂ : Str, a = x₁ ++ x₂ → x₂ ≠ [] →
      dropPrefixSeq urlOpen (x₂ ++ 'u' :: tl) = none := by
  intro x₁ x₂ hx hne
  rw [dropPrefixSeq_eq_none_iff]
  cases hpre : hasPrefixSeq urlOpen (x₂ ++ 'u' :: tl) with
  | false => rfl
  | true =>
    exfalso
    rcases hasPrefixSeq_append_cases urlOpen x₂ ('u' :: tl) hpre with
      hl | ⟨k, hk, hklt, _, hdrop⟩
    · have : containsSeq urlOpen a = true := hx ▸ containsSeq_of_append_prefix urlOpen x₁ x₂ hl
      rw [ha] at this
      exact Bool.false_ne_true this
    · have hk1 : 1 ≤ k := by
        rcases x₂ with _ | ⟨c, cs⟩
        · exact absurd rfl hne
        · simp [hk]
      have hk4 : k < 4 := by
        rw [urlOpen_eq] at hklt
        simpa using hklt
      interval_cases k <;>
        · rw [urlOpen_eq] at hdrop
          simp only [List.drop_succ_cons, List.drop_zero, hasPrefixSeq, Bool.and_eq_true,
            decide_eq_true_eq] at hdrop
          exact absurd hdrop.1 (by decide)

theorem scanUrls_append_skip : ∀ (x t : Str),
    (∀ x₁ x₂ : Str, x = x₁ ++ x₂ → x₂ ≠ [] → dropPrefixSeq urlOpen (x₂ ++ t) = none) →
    scanUrls (x ++ t) = scanUrls t := by
  intro x
  induction x with
  | nil => intro t _; rfl
  | cons c cs ih =>
    intro t H
    have h0 : dropPrefixSeq urlOpen ((c :: cs) ++ t) = none := H [] (c :: cs) rfl (by simp)
    rw [List.cons_append] at h0 ⊢
    rw [scanUrls_cons, h0]
    exact ih t (fun x₁ x₂ hx hne => H (c :: x₁) x₂ (by simp [hx]) hne)

theorem scanUrls_eq_nil (b : Str) (hb : containsSeq urlOpen b = false) : scanUrls b = [] := by
  induction b with
  | nil => rfl
  | cons c cs ih =>
    simp only [containsSeq, Bool.or_eq_false_iff] at hb
    have h0 : dropPrefixSeq urlOpen (c :: cs) = none := by
      rw [dropPrefixSeq_eq_none_iff]
      exact hb.1
    rw [scanUrls_cons, h0]
    exact ih hb.2

theorem matchClose_close (b : Str) : matchClose (')' :: b) = some b := by
  cases b <;> rfl

theorem matchClose_none_of_safe (c : Char) (hc : urlSafeChar c = true) (x : Str) :
    matchClose (c :: x) = none := by
  obtain ⟨hq, hp, _⟩ := urlSafeChar_spec c hc
  cases x with
  | nil => simp [matchClose, hp]
  | cons d rest => simp [matchClose, hq, hp]

theorem matchBody_of_safe : ∀ (u b : Str), u ≠ [] → (∀ c ∈ u, urlSafeChar c = true) →
    matchBody (u ++ ')' :: b) = some (u, b) := by
  intro u
  induction u with
  | nil => intro b hne _; exact absurd rfl hne
  | cons c u' ih =>
    intro b _ hu
    have hq : isQuoteChar c = false :=
      (urlSafeChar_spec c (hu c (List.mem_cons_self c u'))).1
    rw [List.cons_append]
    simp only [matchBody, hq, Bool.false_eq_true, if_false]
    cases u' with
    | nil =>
      simp [matchClose_close b]
    | cons c2 u'' =>
      rw [List.cons_append]
      rw [matchClose_none_of_safe c2 (hu c2 (by simp)) (u'' ++ ')' :: b)]
      rw [← List.cons_append]
      rw [ih b (by simp) (fun d hd => hu d (List.mem_cons_of_mem c hd))]

theorem matchAfterParen_of_safe (u b : Str) (hune : u ≠ [])
    (hu : ∀ c ∈ u, urlSafeChar c = true) :
    matchAfterParen (u ++ ')' :: b) = some (u, b) := by
  cases u with
  | nil => exact absurd rfl hune
  | cons c u' =>
    have hq : isQuoteChar c = false :=
      (urlSafeChar_spec c (hu c (List.mem_cons_self c u'))).1
    rw [List.cons_append]
    simp only [matchAfterParen, hq, Bool.false_eq_true, if_false]
    rw [← List.cons_append]
    exact matchBody_of_safe (c :: u') b hune hu

theorem scanUrls_reference (u b : Str) (hune : u ≠ [])
    (hu : ∀ c ∈ u, urlSafeChar c = true) :
    scanUrls (urlOpen ++ (u ++ ')' :: b)) = u :: scanUrls b := by
  have hshape : urlOpen ++ (u ++ ')' :: b) = 'u' :: 'r' :: 'l' :: '(' :: (u ++ ')' :: b) := by
    rw [urlOpen_eq]
    rfl
  have hdp : dropPrefixSeq urlOpen ('u' :: 'r' :: 'l' :: '(' :: (u ++ ')' :: b)) =
      some (u ++ ')' :: b) := by
    rw [← hshape]
    exact dropPrefixSeq_append_self urlOpen (u ++ ')' :: b)
  rw [hshape, scanUrls_cons]
  simp only [hdp, matchAfterParen_of_safe u b hune hu]

theorem scanUrls_single (a u b : Str)
    (ha : containsSeq urlOpen a = false) (hb : containsSeq urlOpen b = false)
    (hune : u ≠ []) (hu : ∀ c ∈ u, urlSafeChar c = true) :
    scanUrls (a ++ (urlOpen ++ (u ++ ')' :: b))) = [u] := by
  have hskip : scanUrls (a ++ (urlOpen ++ (u ++ ')' :: b))) =
      scanUrls (urlOpen ++ (u ++ ')' :: b)) := by
    have := scanUrls_append_skip a ('u' :: ('r' :: 'l' :: '(' :: (u ++ ')' :: b)))
      (dropPrefix_skip_H a ha ('r' :: 'l' :: '(' :: (u ++ ')' :: b)))
    simpa [urlOpen_eq] using this
  rw [hskip, scanUrls_reference u b hune hu, scanUrls_eq_nil b hb]

theorem matchCloseQ_length (s : Str) (m : Str × Str) (h : matchCloseQ s = some m) :
    m.2.length < s.length := by
  match s with
  | [] => exact absurd h (by simp [matchCloseQ])
  | [c] =>
    simp only [matchCloseQ] at h
    split at h
    · cases h
      simp
    · exact absurd h (by simp)
  | c :: d :: rest =>
    simp only [matchCloseQ] at h
    split at h
    · split at h
      · cases h
        simp only [List.length_cons]
        omega
      · exact absurd h (by simp)
    · split at h
      · cases h
        simp only [List.length_cons]
        omega
      · exact absurd h (by simp)

theorem matchTailUrl_length (url s : Str) (m : Str × Str) (h : matchTailUrl url s = some m) :
    m.2.length < s.length := by
  simp only [matchTailUrl] at h
  cases hdp : dropPrefixSeq url s with
  | none => rw [hdp] at h; exact absurd h (by simp)
  | some r =>
    rw [hdp] at h
    have h1 := dropPrefixSeq_length url s r hdp
    have h2 := matchCloseQ_length r m h
    omega

theorem matchUrlPatAt_length (url s : Str) (m : Str × Str × Str)
    (h : matchUrlPatAt url s = some m) : m.2.2.length < s.length := by
  cases hdp : dropPrefixSeq urlOpen s with
  | none => simp [matchUrlPatAt, hdp] at h
  | some r =>
    have h1 := dropPrefixSeq_length urlOpen s r hdp
    have hopen : urlOpen.length = 4 := rfl
    cases r with
    | nil =>
      simp only [matchUrlPatAt, hdp] at h
      exact absurd h (by simp)
    | cons c r2 =>
      simp only [matchUrlPatAt, hdp] at h
      simp only [List.length_cons] at h1
      split at h
      · cases htl : matchTailUrl url r2 with
        | some g3rest =>
          rw [htl] at h
          have hm : some (urlOpen ++ [c], g3rest.1, g3rest.2) = some m := h
          cases hm
          have := matchTailUrl_length url r2 g3rest htl
          show g3rest.2.length < s.length
          omega
        | none =>
          rw [htl] at h
          cases htl2 : matchTailUrl url (c :: r2) with
          | some g3rest =>
            rw [htl2] at h
            have hm : some (urlOpen, g3rest.1, g3rest.2) = some m := h
            cases hm
            have := matchTailUrl_length url (c :: r2) g3rest htl2
            show g3rest.2.length < s.length
            simp only [List.length_cons] at this
            omega
          | none =>
            rw [htl2] at h
            exact absurd h (by simp)
      · cases htl : matchTailUrl url (c :: r2) with
        | some g3rest =>
          rw [htl] at h
          have hm : some (urlOpen, g3rest.1, g3rest.2) = some m := h
          cases hm
          have := matchTailUrl_length url (c :: r2) g3rest htl
          show g3rest.2.length < s.length
          simp only [List.length_cons] at this
          omega
        | none =>
          rw [htl] at h
          exact absurd h (by simp)

theorem replaceUrlAux_fuel : ∀ fuel1 fuel2 (url repl s : Str), s.length ≤ fuel1 →
    s.length ≤ fuel2 → replaceUrlAux fuel1 url repl s = replaceUrlAux fuel2 url repl s := by
  intro fuel1
  induction fuel1 with
  | zero =>
    intro fuel2 url repl s h1 h2
    have : s = [] := List.length_eq_zero.mp (Nat.le_zero.mp h1)
    subst this
    cases fuel2 <;> rfl
  | succ f1 ih =>
    intro fuel2 url repl s h1 h2
    cases s with
    | nil => cases fuel2 <;> rfl
    | cons c rest =>
      cases fuel2 with
      | zero => simp at h2
      | succ f2 =>
        have hr1 : rest.length ≤ f1 := by simp at h1; omega
        have hr2 : rest.length ≤ f2 := by simp at h2; omega
        simp only [replaceUrlAux]
        split
        · rename_i m hm
          have hlen := matchUrlPatAt_length url (c :: rest) m hm
          rw [ih f2 url repl m.2.2 (by simp at hlen; omega) (by simp at hlen; omega)]
        · rw [ih f2 url repl rest hr1 hr2]

theorem replaceUrl_cons (url repl : Str) (c : Char) (rest : Str) :
    replaceUrlMatches url repl (c :: rest) =
      match matchUrlPatAt url (c :: rest) with
      | some m => m.1 ++ repl ++ m.2.1 ++ replaceUrlMatches url repl m.2.2
      | none => c :: replaceUrlMatches url repl rest := by
  show replaceUrlAux (rest.length + 1) url repl (c :: rest) = _
  simp only [replaceUrlAux]
  split
  · rename_i m hm
    have hlen := matchUrlPatAt_length url (c :: rest) m hm
    rw [replaceUrlAux_fuel rest.length m.2.2.length url repl m.2.2 (by simp at hlen; omega) le_rfl]
    rfl
  · rfl

theorem matchUrlPatAt_none_of_no_open (url s : Str)
    (h : dropPrefixSeq urlOpen s = none) : matchUrlPatAt url s = none := by
  simp [matchUrlPatAt, h]

theorem replaceUrl_append_skip (url repl : Str) : ∀ (x t : Str),
    (∀ x₁ x₂ : Str, x = x₁ ++ x₂ → x₂ ≠ [] → dropPrefixSeq urlOpen (x₂ ++ t) = none) →
    replaceUrlMatches url repl (x ++ t) = x ++ replaceUrlMatches url repl t := by
  intro x
  induction x with
  | nil => intro t _; rfl
  | cons c cs ih =>
    intro t H
    have h0 : dropPrefixSeq urlOpen ((c :: cs) ++ t) = none := H [] (c :: cs) rfl (by simp)
    rw [List.cons_append] at h0 ⊢
    rw [replaceUrl_cons, matchUrlPatAt_none_of_no_open url _ h0]
    exact congrArg (List.cons c) (ih t (fun x₁ x₂ hx hne => H (c :: x₁) x₂ (by simp [hx]) hne))

theorem replaceUrl_eq_self (url repl : Str) (b : Str)
    (hb : containsSeq urlOpen b = false) : replaceUrlMatches url repl b = b := by
  induction b with
  | nil => rfl
  | cons c cs ih =>
    simp only [containsSeq, Bool.or_eq_false_iff] at hb
    have h0 : dropPrefixSeq urlOpen (c :: cs) = none := by
      rw [dropPrefixSeq_eq_none_iff]
      exact hb.1
    rw [replaceUrl_cons, matchUrlPatAt_none_of_no_open url _ h0]
    exact congrArg (List.cons c) (ih hb.2)

theorem matchCloseQ_close (b : Str) : matchCloseQ (')' :: b) = some ([')'], b) := by
  cases b <;> rfl

theorem matchUrlPatAt_reference (u b : Str) (hune : u ≠ [])
    (hu : ∀ c ∈ u, urlSafeChar c = true) :
    matchUrlPatAt u ('u' :: 'r' :: 'l' :: '(' :: (u ++ ')' :: b)) =
      some (urlOpen, [')'], b) := by
  have hshape : urlOpen ++ (u ++ ')' :: b) = 'u' :: 'r' :: 'l' :: '(' :: (u ++ ')' :: b) := by
    rw [urlOpen_eq]
    rfl
  have hdp : dropPrefixSeq urlOpen ('u' :: 'r' :: 'l' :: '(' :: (u ++ ')' :: b)) =
      some (u ++ ')' :: b) := by
    rw [← hshape]
    exact dropPrefixSeq_append_self urlOpen (u ++ ')' :: b)
  have htail : matchTailUrl u (u ++ ')' :: b) = some ([')'], b) := by
    simp only [matchTailUrl, dropPrefixSeq_append_self u (')' :: b), matchCloseQ_close b]
  cases u with
  | nil => exact absurd rfl hune
  | cons c u' =>
    have hq : isQuoteChar c = false :=
      (urlSafeChar_spec c (hu c (List.mem_cons_self c u'))).1
    rw [List.cons_append] at hdp htail
    show (match dropPrefixSeq urlOpen ('u' :: 'r' :: 'l' :: '(' :: c :: (u' ++ ')' :: b)) with
      | none => none
      | some r =>
        match r with
        | c :: r2 =>
          if isQuoteChar c = true then
            match matchTailUrl (c :: u') r2 with
            | some g3rest => some (urlOpen ++ [c], g3rest.1, g3rest.2)
            | none =>
              match matchTailUrl (c :: u') r with
              | some g3rest => some (urlOpen, g3rest.1, g3rest.2)
              | none => none
          else
            match matchTailUrl (c :: u') r with
            | some g3rest => some (urlOpen, g3rest.1, g3rest.2)
            | none => none
        | [] => none) = some (urlOpen, [')'], b)
    rw [hdp]
    show (if isQuoteChar c = true then
        match matchTailUrl (c :: u') (u' ++ ')' :: b) with
        | some g3rest => some (urlOpen ++ [c], g3rest.1, g3rest.2)
        | none =>
          match matchTailUrl (c :: u') (c :: (u' ++ ')' :: b)) with
          | some g3rest => some (urlOpen, g3rest.1, g3rest.2)
          | none => none
      else
        match matchTailUrl (c :: u') (c :: (u' ++ ')' :: b)) with
        | some g3rest => some (urlOpen, g3rest.1, g3rest.2)
        | none => none) = some (urlOpen, [')'], b)
    rw [if_neg (by rw [hq]; exact Bool.false_ne_true), htail]

theorem replaceUrl_single (a u b repl : Str)
    (ha : containsSeq urlOpen a = false) (hb : containsSeq urlOpen b = false)
    (hune : u ≠ []) (hu : ∀ c ∈ u, urlSafeChar c = true) :
    replaceUrlMatches u repl (a ++ (urlOpen ++ (u ++ ')' :: b))) =
      a ++ (urlOpen ++ (repl ++ ')' :: b)) := by
  have hshape : urlOpen ++ (u ++ ')' :: b) = 'u' :: 'r' :: 'l' :: '(' :: (u ++ ')' :: b) := by
    rw [urlOpen_eq]
    rfl
  have hskip := replaceUrl_append_skip u repl a ('u' :: ('r' :: 'l' :: '(' :: (u ++ ')' :: b)))
    (dropPrefix_skip_H a ha ('r' :: 'l' :: '(' :: (u ++ ')' :: b)))
  rw [hshape]
  rw [show ('u' :: ('r' :: 'l' :: '(' :: (u ++ ')' :: b)) : Str) =
      'u' :: 'r' :: 'l' :: '(' :: (u ++ ')' :: b) from rfl] at hskip
  rw [hskip, replaceUrl_cons, matchUrlPatAt_reference u b hune hu]
  show a ++ (urlOpen ++ repl ++ [')'] ++ replaceUrlMatches u repl b) =
    a ++ (urlOpen ++ (repl ++ ')' :: b))
  rw [replaceUrl_eq_self u repl b hb]
  simp [List.append_assoc]

theorem hasPrefixSeq_head_ne (p c : Char) (ps cs : Str) (h : ¬(p = c)) :
    hasPrefixSeq (p :: ps) (c :: cs) = false := by
  simp only [hasPrefixSeq]
  rw [decide_eq_false h]
  simp

theorem mimeTypeFor_safe (ext : Str) : ∀ c ∈ mimeTypeFor ext, urlSafeChar c = true := by
  unfold mimeTypeFor
  repeat' split
  all_goals decide

theorem mimeTypeFor_no_dataColon (ext : Str) :
    containsSeq dataColon (mimeTypeFor ext) = false := by
  unfold mimeTypeFor
  repeat' split
  all_goals decide

theorem dc_drop_head_ne (c0 : Char) (tl : Str)
    (h1 : c0 ≠ 'a') (h2 : c0 ≠ 't') (h3 : c0 ≠ ':') :
    ∀ k, 1 ≤ k → k < 5 → hasPrefixSeq (List.drop k dataColon) (c0 :: tl) = false := by
  intro k hk1 hk5
  have e1 : List.drop 1 dataColon = 'a' :: 't' :: 'a' :: ':' :: [] := by decide
  have e2 : List.drop 2 dataColon = 't' :: 'a' :: ':' :: [] := by decide
  have e3 : List.drop 3 dataColon = 'a' :: ':' :: [] := by decide
  have e4 : List.drop 4 dataColon = ':' :: [] := by decide
  interval_cases k
  · rw [e1]; exact hasPrefixSeq_head_ne _ _ _ _ (fun e => h1 e.symm)
  · rw [e2]; exact hasPrefixSeq_head_ne _ _ _ _ (fun e => h2 e.symm)
  · rw [e3]; exact hasPrefixSeq_head_ne _ _ _ _ (fun e => h1 e.symm)
  · rw [e4]; exact hasPrefixSeq_head_ne _ _ _ _ (fun e => h3 e.symm)

theorem countSeq_dc_skip (x y : Str) (hx : containsSeq dataColon x = false)
    (hy : ∀ k, 1 ≤ k → k < 5 → hasPrefixSeq (List.drop k dataColon) y = false) :
    countSeq dataColon (x ++ y) = countSeq dataColon y := by
  apply countSeq_append_skip
  intro x₁ x₂ hxeq hne
  cases hpre : hasPrefixSeq dataColon (x₂ ++ y) with
  | false => rfl
  | true =>
    exfalso
    rcases hasPrefixSeq_append_cases dataColon x₂ y hpre with hl | ⟨k, hk, hklt, _, hdrop⟩
    · have : containsSeq dataColon x = true :=
        hxeq ▸ containsSeq_of_append_prefix dataColon x₁ x₂ hl
      rw [hx] at this
      exact Bool.false_ne_true this
    · have hk1 : 1 ≤ k := by
        rcases x₂ with _ | ⟨c, cs⟩
        · exact absurd rfl hne
        · simp [hk]
      have hk5 : k < 5 := by
        rw [dataColon_eq] at hklt
        simpa using hklt
      rw [hy k hk1 hk5] at hdrop
      exact Bool.false_ne_true hdrop

theorem countSeq_dc_skip_no_d (x y : Str) (hd : 'd' ∉ x) :
    countSeq dataColon (x ++ y) = countSeq dataColon y := by
  apply countSeq_append_skip
  intro x₁ x₂ hxeq hne
  cases hpre : hasPrefixSeq dataColon (x₂ ++ y) with
  | false => rfl
  | true =>
    exfalso
    rcases hasPrefixSeq_append_cases dataColon x₂ y hpre with hl | ⟨k, hk, hklt, htake, _⟩
    · have hdx : 'd' ∈ x₂ :=
        hasPrefixSeq_mem dataColon x₂ hl 'd' (by rw [dataColon_eq]; simp)
      exact hd (hxeq ▸ List.mem_append_right x₁ hdx)
    · have hk1 : 1 ≤ k := by
        rcases x₂ with _ | ⟨c, cs⟩
        · exact absurd rfl hne
        · simp [hk]
      have hdx : 'd' ∈ x₂ := by
        rw [← htake]
        cases k with
        | zero => omega
        | succ k2 =>
          rw [dataColon_eq]
          simp [List.take_succ_cons]
      exact hd (hxeq ▸ List.mem_append_right x₁ hdx)

theorem countSeq_dc_skip_payload (x tl : Str) (hb64 : ∀ c ∈ x, base64Char c = true) :
    countSeq dataColon (x ++ ')' :: tl) = countSeq dataColon (')' :: tl) := by
  apply countSeq_append_skip
  intro x₁ x₂ hxeq hne
  cases hpre : hasPrefixSeq dataColon (x₂ ++ ')' :: tl) with
  | false => rfl
  | true =>
    exfalso
    rcases hasPrefixSeq_append_cases dataColon x₂ (')' :: tl) hpre with
      hl | ⟨k, hk, hklt, _, hdrop⟩
    · have hcx : ':' ∈ x₂ :=
        hasPrefixSeq_mem dataColon x₂ hl ':' (by rw [dataColon_eq]; simp)
      have : ':' ∈ x := hxeq ▸ List.mem_append_right x₁ hcx
      exact absurd (hb64 ':' this) (by decide)
    · have hk1 : 1 ≤ k := by
        rcases x₂ with _ | ⟨c, cs⟩
        · exact absurd rfl hne
        · simp [hk]
      have hk5 : k < 5 := by
        rw [dataColon_eq] at hklt
        simpa using hklt
      rw [dc_drop_head_ne ')' tl (by decide) (by decide) (by decide) k hk1 hk5] at hdrop
      exact Bool.false_ne_true hdrop

theorem countSeq_dc_cons_ne (c : Char) (h : ¬('d' = c)) (tl : Str) :
    countSeq dataColon (c :: tl) = countSeq dataColon tl := by
  have h0 : hasPrefixSeq dataColon (c :: tl) = false := by
    rw [dataColon_eq]
    exact hasPrefixSeq_head_ne _ _ _ _ h
  simp [countSeq, h0]

theorem countSeq_dataColon_self (tail : Str) :
    countSeq dataColon (dataColon ++ tail) = 1 + countSeq dataColon tail := by
  have h0 : hasPrefixSeq dataColon (dataColon ++ tail) = true := hasPrefixSeq_append_self _ _
  have e : dataColon ++ tail = 'd' :: 'a' :: 't' :: 'a' :: ':' :: tail := by
    rw [dataColon_eq]
    rfl
  rw [e] at h0 ⊢
  have h1 : hasPrefixSeq dataColon ('a' :: 't' :: 'a' :: ':' :: tail) = false := by
    rw [dataColon_eq]; exact hasPrefixSeq_head_ne _ _ _ _ (by decide)
  have h2 : hasPrefixSeq dataColon ('t' :: 'a' :: ':' :: tail) = false := by
    rw [dataColon_eq]; exact hasPrefixSeq_head_ne _ _ _ _ (by decide)
  have h3 : hasPrefixSeq dataColon ('a' :: ':' :: tail) = false := by
    rw [dataColon_eq]; exact hasPrefixSeq_head_ne _ _ _ _ (by decide)
  have h4 : hasPrefixSeq dataColon (':' :: tail) = false := by
    rw [dataColon_eq]; exact hasPrefixSeq_head_ne _ _ _ _ (by decide)
  simp [countSeq, h0, h1, h2, h3, h4]

theorem countSeq_dc_shape (a mime payload b : Str)
    (hadata : containsSeq dataColon a = false) (hbdata : containsSeq dataColon b = false)
    (hmime : containsSeq dataColon mime = false)
    (hpay : ∀ c ∈ payload, base64Char c = true) :
    countSeq dataColon
      (a ++ ('u' :: 'r' :: 'l' :: '(' ::
        (dataColon ++ (mime ++ (';' :: 'b' :: 'a' :: 's' :: 'e' :: '6' :: '4' :: ',' ::
          (payload ++ (')' :: b))))))) = 1 := by
  rw [countSeq_dc_skip a _ hadata
    (dc_drop_head_ne 'u' _ (by decide) (by decide) (by decide))]
  show countSeq dataColon ((['u', 'r', 'l', '('] : Str) ++
    (dataColon ++ (mime ++ (';' :: 'b' :: 'a' :: 's' :: 'e' :: '6' :: '4' :: ',' ::
      (payload ++ (')' :: b)))))) = 1
  rw [countSeq_dc_skip_no_d (['u', 'r', 'l', '('] : Str) _ (by decide)]
  rw [countSeq_dataColon_self]
  rw [countSeq_dc_skip mime _ hmime
    (dc_drop_head_ne ';' _ (by decide) (by decide) (by decide))]
  show 1 + countSeq dataColon (([';', 'b', 'a', 's', 'e', '6', '4', ','] : Str) ++
    (payload ++ (')' :: b))) = 1
  rw [countSeq_dc_skip_no_d ([';', 'b', 'a', 's', 'e', '6', '4', ','] : Str) _ (by decide)]
  rw [countSeq_dc_skip_payload payload b hpay]
  rw [countSeq_dc_cons_ne ')' (by decide) b]
  rw [countSeq_eq_zero_of_not_contains dataColon b hbdata]

/-! ### Claim theorems about the round-trip of the CSS Reference Inliner -/

/-- C8 (counterexample): the reference `a` of the text `url(a)url(a)` is
successfully inlined (both of its occurrences are rewritten to embedded
data URIs), but the rewritten text contains TWO `data:<mime>;base64,<payload>`
substrings, not exactly one, falsifying the claim as stated. -/
theorem inline_two_occurrences_cex :
    readUrls (strOf "url(a)url(a)") = [strOf "a", strOf "a"]
    ∧ inlineAll (fun u _ => u) (fun _ => strOf "AAAA") (strOf "url(a)url(a)") none =
        strOf "url(data:;base64,AAAA)url(data:;base64,AAAA)"
    ∧ countSeq (dataAsUrl (strOf "AAAA") (mimeType (strOf "a")))
        (strOf "url(data:;base64,AAAA)url(data:;base64,AAAA)") = 2 := by
  refine ⟨by decide, by decide, by decide⟩

/-- C8 (amended): for a text with exactly one discovered reference — an
external reference `u` of scanner-safe characters occurring once between a
prefix and a suffix that contain no further `url(` occurrence and no
`data:` occurrence — inlining rewrites that occurrence in place to
`url(data:<mime>;base64,<payload>)`; the rewritten text contains exactly
one such data-URI substring, and re-scanning it for external (non-`data:`)
`url(...)` references yields none. -/
theorem inlineAll_single_reference_roundtrip (resolve : Str → Str → Str) (get : Str → Str)
    (a u b payload : Str)
    (ha : containsSeq urlOpen a = false) (hb : containsSeq urlOpen b = false)
    (hadata : containsSeq dataColon a = false) (hbdata : containsSeq dataColon b = false)
    (hune : u ≠ []) (hu : ∀ c ∈ u, urlSafeChar c = true) (hud : isDataUrl u = false)
    (hpay : ∀ c ∈ payload, base64Char c = true)
    (hget : get u = payload) :
    inlineAll resolve get (a ++ (urlOpen ++ (u ++ ')' :: b))) none =
      a ++ (urlOpen ++ (dataAsUrl payload (mimeType u) ++ ')' :: b))
    ∧ countSeq (dataAsUrl payload (mimeType u))
        (a ++ (urlOpen ++ (dataAsUrl payload (mimeType u) ++ ')' :: b))) = 1
    ∧ readUrls (a ++ (urlOpen ++ (dataAsUrl payload (mimeType u) ++ ')' :: b))) = [] := by
  have hDassoc : dataAsUrl payload (mimeType u) =
      dataColon ++ (mimeType u ++ (strOf ";base64," ++ payload)) := by
    simp [dataAsUrl, dataColon, List.append_assoc]
  have hDsafe : ∀ c ∈ dataAsUrl payload (mimeType u), urlSafeChar c = true := by
    intro c hc
    simp only [dataAsUrl, List.append_assoc, List.mem_append] at hc
    rcases hc with hc | hc | hc | hc
    · exact (by decide : ∀ x ∈ strOf "data:", urlSafeChar x = true) c hc
    · exact mimeTypeFor_safe (toLowerStr (parseExtension u)) c hc
    · exact (by decide : ∀ x ∈ strOf ";base64,", urlSafeChar x = true) c hc
    · exact base64_safe c (hpay c hc)
  have hDne : dataAsUrl payload (mimeType u) ≠ [] := by
    rw [hDassoc, dataColon_eq]
    simp
  refine ⟨?_, ?_, ?_⟩
  · have hscan : scanUrls (a ++ (urlOpen ++ (u ++ ')' :: b))) = [u] :=
      scanUrls_single a u b ha hb hune hu
    have hread : readUrls (a ++ (urlOpen ++ (u ++ ')' :: b))) = [u] := by
      simp [readUrls, hscan, hud]
    have hsp : shouldProcess (a ++ (urlOpen ++ (u ++ ')' :: b))) = true := by
      simp [shouldProcess, hscan]
    simp only [inlineAll, hsp, if_true, hread, List.foldl]
    simp only [inline, hget]
    exact replaceUrl_single a u b (dataAsUrl payload (mimeType u)) ha hb hune hu
  · have hshape : a ++ (urlOpen ++ (dataAsUrl payload (mimeType u) ++ ')' :: b)) =
        a ++ ('u' :: 'r' :: 'l' :: '(' ::
          (dataColon ++ (mimeType u ++ (';' :: 'b' :: 'a' :: 's' :: 'e' :: '6' :: '4' :: ',' ::
            (payload ++ (')' :: b)))))) := by
      rw [hDassoc, urlOpen_eq]
      simp [List.append_assoc, strOf]
    have hdc : countSeq dataColon
        (a ++ (urlOpen ++ (dataAsUrl payload (mimeType u) ++ ')' :: b))) = 1 := by
      rw [hshape]
      exact countSeq_dc_shape a (mimeType u) payload b hadata hbdata
        (mimeTypeFor_no_dataColon (toLowerStr (parseExtension u))) hpay
    have hge : 1 ≤ countSeq (dataAsUrl payload (mimeType u))
        (a ++ (urlOpen ++ (dataAsUrl payload (mimeType u) ++ ')' :: b))) :=
      le_trans (countSeq_self_pos (dataAsUrl payload (mimeType u)) (')' :: b))
        (le_trans (countSeq_append_ge _ urlOpen _) (countSeq_append_ge _ a _))
    have hle : countSeq (dataAsUrl payload (mimeType u))
        (a ++ (urlOpen ++ (dataAsUrl payload (mimeType u) ++ ')' :: b))) ≤
        countSeq dataColon
        (a ++ (urlOpen ++ (dataAsUrl payload (mimeType u) ++ ')' :: b))) := by
      nth_rewrite 1 [hDassoc]
      exact countSeq_le_of_pattern_extends dataColon
        (mimeType u ++ (strOf ";base64," ++ payload)) _
    omega
  · have hscanR : scanUrls (a ++ (urlOpen ++ (dataAsUrl payload (mimeType u) ++ ')' :: b))) =
        [dataAsUrl payload (mimeType u)] :=
      scanUrls_single a (dataAsUrl payload (mimeType u)) b ha hb hDne hDsafe
    have hdata : isDataUrl (dataAsUrl payload (mimeType u)) = true := by
      show hasPrefixSeq (strOf "data:") (dataAsUrl payload (mimeType u)) = true
      rw [hDassoc]
      exact hasPrefixSeq_append_self dataColon _
    simp [readUrls, hscanR, hdata]

/-- Witness for `inlineAll_single_reference_roundtrip` on a concrete
stylesheet fragment with one external `url(a.png)` reference. -/
theorem inlineAll_single_reference_roundtrip_witness :
    (strOf "a.png" ≠ [] ∧ (∀ c ∈ strOf "a.png", urlSafeChar c = true)
      ∧ isDataUrl (strOf "a.png") = false
      ∧ (∀ c ∈ strOf "AAAA", base64Char c = true)
      ∧ containsSeq urlOpen (strOf "x: ") = false ∧ containsSeq dataColon (strOf ";") = false)
    ∧ inlineAll (fun u _ => u) (fun _ => strOf "AAAA") (strOf "x: url(a.png);") none =
        strOf "x: url(data:image/png;base64,AAAA);" :=
  ⟨⟨by decide, by decide, by decide, by decide, by decide, by decide⟩, by
    have h := (inlineAll_single_reference_roundtrip (fun u _ => u) (fun _ => strOf "AAAA")
      (strOf "x: ") (strOf "a.png") (strOf ";") (strOf "AAAA") (by decide) (by decide)
      (by decide) (by decide) (by decide) (by decide) (by decide) (by decide) rfl).1
    have e1 : strOf "x: " ++ (urlOpen ++ (strOf "a.png" ++ ')' :: strOf ";")) =
        strOf "x: url(a.png);" := by decide
    have e2 : strOf "x: " ++
        (urlOpen ++ (dataAsUrl (strOf "AAAA") (mimeType (strOf "a.png")) ++ ')' :: strOf ";")) =
        strOf "x: url(data:image/png;base64,AAAA);" := by decide
    rw [e1, e2] at h
    exact h⟩

end DomToImage
